import Mathlib

/-!
Shallow embedding of `src/lib/Compiler.js` of adaptlearning/adapt-schemas
(the `JsonSchemaModule` class): a registry and compiler for JSON schemas,
with an extension ledger (`schemaExtensions`) for forward patch references,
a safe-regex gate on string formats, and best-effort discovery.

JavaScript objects used as string-keyed maps are embedded as association
lists with `getKey` / `setKey` / `delKey`; a JS property key that may be
`undefined` is embedded through `jsKeyOf`, which renders the missing value
as the string "undefined" exactly as JS property access coerces it.

The class `JsonSchema` (file `lib/JsonSchema.js`) is not part of the shown
source, so its interface is modelled from the spec (sections 3, 4.2): its
`name` is derived from the document's declared identity by `load()`, its
`addExtension` appends a name if not already present, and `build` is kept
abstract as a parameter.
-/

namespace AdaptSchemas

/-- A JavaScript runtime value, restricted to the shapes relevant to the
argument checks performed by the module (lodash `_.isString`). -/
inductive JsValue where
  | str : String → JsValue
  | num : Int → JsValue
  | boolean : Bool → JsValue
  | undefined : JsValue
deriving DecidableEq, Repr

/-- lodash `_.isString`. -/
def isString : JsValue → Bool
  | .str _ => true
  | _ => false

/-- JS property-key coercion: using a possibly-undefined value as an object
key; `undefined` is coerced to the string "undefined". -/
def jsKeyOf : Option String → String
  | some s => s
  | none => "undefined"

/-- JS object property read: first binding for a key, if any. -/
def getKey {α : Type} : List (String × α) → String → Option α
  | [], _ => none
  | p :: t, k => if p.1 == k then some p.2 else getKey t k

/-- JS object property write: overwrite in place if the key exists,
otherwise append (insertion order preserved, as JS objects do). -/
def setKey {α : Type} : List (String × α) → String → α → List (String × α)
  | [], k, v => [(k, v)]
  | p :: t, k, v => if p.1 == k then (k, v) :: t else p :: setKey t k v

/-- JS `delete obj[k]`. -/
def delKey {α : Type} : List (String × α) → String → List (String × α)
  | [], _ => []
  | p :: t, k => if p.1 == k then delKey t k else p :: delKey t k

/-- A regular expression literal, identified by its source text (the
module never executes candidate patterns during the safety check). -/
structure RegExpPat where
  source : String
deriving DecidableEq, Repr

/-- The permissive fallback installed for unsafe formats: `/.*/`. -/
def catchAllPattern : RegExpPat := ⟨".*"⟩

/-- Severity levels used by `this.log`. -/
inductive LogLevel where
  | warn : LogLevel
  | debug : LogLevel
  | error : LogLevel
deriving DecidableEq, Repr

/-- One `this.log(level, ...args)` call, with its arguments kept as a list. -/
structure LogEntry where
  level : LogLevel
  parts : List String
deriving DecidableEq, Repr

/-- An Ajv keyword definition; the module only reads its `keyword` field
(for the failure log message) and otherwise treats it as opaque data. -/
structure KeywordDef where
  keyword : String
deriving DecidableEq, Repr

/-- The state of the Ajv validator instance that the module owns:
installed string formats and installed keywords. -/
structure Validator where
  formats : List (String × RegExpPat)
  keywords : List KeywordDef
deriving DecidableEq, Repr

/-- Ajv `addFormat(name, re)`: installs (or overwrites) a format. -/
def Validator.addFormat (v : Validator) (name : String) (re : RegExpPat) : Validator :=
  { v with formats := setKey v.formats name re }

/-- A schema document, restricted to the fields the module inspects: the
declared identity (`$anchor`, yielding the unit's name) and the optional
`$patch` member with its `source.$ref` (inner `none` models a `$patch`
object whose `source.$ref` is absent / undefined). -/
structure RawDoc where
  anchor : String
  patch : Option (Option String)
deriving DecidableEq, Repr

/-- Modelled from the spec: a Schema Unit (`lib/JsonSchema.js`, not in the
shown source). Per spec section 3 its `name` is "derived from the schema's
declared identity in its document", so before `load()` parses the document
the name is not yet available (`none`). -/
structure JsonSchema where
  filePath : String
  name : Option String
  raw : Option RawDoc
  extensions : List String
deriving DecidableEq, Repr

/-- Modelled from the spec (section 4.2): `addExtension(extensionName)`
"appends `extensionName` to the ordered extension set if not already
present; idempotent". -/
def JsonSchema.addExtension (s : JsonSchema) (e : String) : JsonSchema :=
  if e ∈ s.extensions then s else { s with extensions := s.extensions ++ [e] }

/-- The filesystem visible to `load()`: maps a file path to the parsed
schema document, or `none` when the file cannot be read or parsed. -/
abbrev FileSystem := String → Option RawDoc

/-- The error kinds raised by the module (host error surface, spec
section 6), plus the per-file load failure. -/
inductive JsonError where
  | invalidParams (params : List String)
  | schemaExists (name filepath : String)
  | notFound (type id : String)
  | loadError (filePath : String)
deriving DecidableEq, Repr

/-- Modelled from the spec (section 4.2): `load()` "parses the raw document
from its source"; on success the unit's `raw` and `name` are populated from
the document, on failure a `LoadError` is raised. -/
def JsonSchema.load (fs : FileSystem) (s : JsonSchema) : Except JsonError JsonSchema :=
  match fs s.filePath with
  | none => .error (.loadError s.filePath)
  | some doc => .ok { s with raw := some doc, name := some doc.anchor }

/-- The mutable state of the `JsonSchemaModule` instance: the catalog
(`this.schemas`), the extension ledger (`this.schemaExtensions`), the Ajv
validator, and the log output. -/
structure ModuleState where
  schemas : List (String × JsonSchema)
  schemaExtensions : List (String × List String)
  validator : Validator
  log : List LogEntry
deriving DecidableEq, Repr

/-- The state established by `init` (Compiler.js lines 21-26): empty
catalog, empty ledger, fresh validator. -/
def emptyModuleState : ModuleState :=
  { schemas := [], schemaExtensions := [], validator := { formats := [], keywords := [] },
    log := [] }

/-- `this.log(level, ...parts)`. -/
def ModuleState.logEntry (st : ModuleState) (lvl : LogLevel) (parts : List String) : ModuleState :=
  { st with log := st.log ++ [⟨lvl, parts⟩] }

/-- The `safe-regex` dependency: a static classifier, `true` = safe. -/
abbrev SafeRegexCheck := RegExpPat → Bool

/-- Ajv `addKeyword`, which may throw (modelled as `Except` with the
thrown message). -/
abbrev AjvAddKeyword := Validator → KeywordDef → Except String Validator

/-- One iteration of the `forEach` body in `addStringFormats`
(Compiler.js lines 58-62): classify with safe-regex, warn and substitute
`/.*/` when unsafe, then install. -/
def addStringFormat1 (safeRegex : SafeRegexCheck) (st : ModuleState)
    (entry : String × RegExpPat) : ModuleState :=
  let name := entry.1
  let re := entry.2
  let bad := !(safeRegex re)
  let st := if bad then
      st.logEntry .warn ["unsafe RegExp for format", name, re.source, "using default"]
    else st
  { st with validator := st.validator.addFormat name (if bad then catchAllPattern else re) }

/-- `addStringFormats(formats)` (Compiler.js lines 57-63). -/
def addStringFormats (safeRegex : SafeRegexCheck) (st : ModuleState)
    (formats : List (String × RegExpPat)) : ModuleState :=
  formats.foldl (addStringFormat1 safeRegex) st

/-- `addKeyword(definition)` (Compiler.js lines 69-75): try to install,
catch any failure, log a warning, swallow. -/
def addKeyword (ajvAddKeyword : AjvAddKeyword) (st : ModuleState)
    (definition : KeywordDef) : ModuleState :=
  match ajvAddKeyword st.validator definition with
  | .ok v => { st with validator := v }
  | .error e => st.logEntry .warn ["failed to define keyword", definition.keyword, e]

/-- `deregisterSchema(name)` (Compiler.js lines 121-124). -/
def deregisterSchema (st : ModuleState) (name : String) : ModuleState :=
  let st := if (getKey st.schemas name).isSome then
      { st with schemas := delKey st.schemas name }
    else st
  st.logEntry .debug ["DEREGISTER_SCHEMA", name]

/-- `createSchema(filePath, options)` (Compiler.js lines 131-142):
constructs a fresh unit, applies and deletes the ledger entry keyed by
`schema.name` — which at this point, before `load()`, is still undefined,
so the key used is the string "undefined" — then loads the document.
The ledger mutation happens before the load, so it takes effect even when
the load fails. -/
def createSchema (fs : FileSystem) (st : ModuleState) (filePath : String) :
    Except JsonError JsonSchema × ModuleState :=
  let schema : JsonSchema := { filePath := filePath, name := none, raw := none, extensions := [] }
  let key := jsKeyOf schema.name
  let pending := (getKey st.schemaExtensions key).getD []
  let schema := pending.foldl JsonSchema.addExtension schema
  let st := { st with schemaExtensions := delKey st.schemaExtensions key }
  (schema.load fs, st)

/-- `extendSchema(baseSchemaName, extSchemaName)` (Compiler.js lines
149-158): apply immediately when the base is in the catalog, otherwise
park the name in the ledger. -/
def extendSchema (st : ModuleState) (baseSchemaName extSchemaName : String) : ModuleState :=
  let st :=
    match getKey st.schemas baseSchemaName with
    | some baseSchema =>
        { st with schemas := setKey st.schemas baseSchemaName (baseSchema.addExtension extSchemaName) }
    | none =>
        let cur := (getKey st.schemaExtensions baseSchemaName).getD []
        { st with schemaExtensions := setKey st.schemaExtensions baseSchemaName (cur ++ [extSchemaName]) }
  st.logEntry .debug ["EXTEND_SCHEMA", baseSchemaName, extSchemaName]

/-- `RegisterSchemaOptions`. -/
structure RegisterSchemaOptions where
  replace : Bool := false
deriving DecidableEq, Repr

/-- Compiler.js lines 109-113, the tail of `registerSchema` after the
conflict check: insert into the catalog, apply ledger entries pending for
this name via `addExtension` (line 110 — note the entry is read but not
deleted here), register the patch-source relation when the document
declares one (line 111), and log. The JS code inserts the unit object and
then mutates that same object; the pure embedding applies the mutations
first and stores the final object, which yields the same final state. -/
def finishRegister (st : ModuleState) (schema : JsonSchema) (name fp : String) :
    Except JsonError Unit × ModuleState :=
  let pending := (getKey st.schemaExtensions name).getD []
  let schema := pending.foldl JsonSchema.addExtension schema
  let st := { st with schemas := setKey st.schemas name schema }
  let st :=
    match schema.raw with
    | some doc =>
        match doc.patch with
        | some srcRef => extendSchema st (jsKeyOf srcRef) name
        | none => st
    | none => st
  (.ok (), st.logEntry .debug ["REGISTER_SCHEMA", name, fp])

/-- `registerSchema(filePath, options)` (Compiler.js lines 99-114). -/
def registerSchema (fs : FileSystem) (st : ModuleState) (filePath : JsValue)
    (options : RegisterSchemaOptions) : Except JsonError Unit × ModuleState :=
  match filePath with
  | .str fp =>
    (match createSchema fs st fp with
     | (.error e, st1) => (.error e, st1)
     | (.ok schema, st1) =>
       let name := jsKeyOf schema.name
       if (getKey st1.schemas name).isSome then
         if options.replace then finishRegister (deregisterSchema st1 name) schema name fp
         else (.error (.schemaExists name fp), st1)
       else finishRegister st1 schema name fp)
  | _ => (.error (.invalidParams ["filePath"]), st)

/-- Rendering of a rejection reason for the warning log in
`registerSchemas` (the JS logs the rejection value itself). -/
def errMessage : JsonError → String
  | .invalidParams ps => String.intercalate " " ("InvalidParams" :: ps)
  | .schemaExists n f => String.intercalate " " ["SchemaExists", n, f]
  | .notFound t i => String.intercalate " " ["NotFound", t, i]
  | .loadError f => String.intercalate " " ["LoadError", f]

/-- The `Promise.allSettled(files.map(f => this.registerSchema(f)))` of
Compiler.js line 87 (registration serialized): every file is attempted,
each rejection is collected in order, no rejection aborts the rest. -/
def processFiles (fs : FileSystem) (files : List String) (st : ModuleState) :
    List JsonError × ModuleState :=
  match files with
  | [] => ([], st)
  | f :: rest =>
    match registerSchema fs st (.str f) {} with
    | (.error e, st1) =>
      let r := processFiles fs rest st1
      (e :: r.1, r.2)
    | (.ok _, st1) => processFiles fs rest st1

/-- The per-dependency body of `registerSchemas` (Compiler.js lines
83-90): register every globbed file, then log each rejected result as a
warning. -/
def registerDependency (fs : FileSystem) (st : ModuleState) (files : List String) : ModuleState :=
  let r := processFiles fs files st
  r.1.foldl (fun s e => s.logEntry .warn [errMessage e]) r.2

/-- `registerSchemas()` (Compiler.js lines 81-91): reset the catalog
(`this.schemas = {}`, line 82), then register each dependency's globbed
schema files best-effort. Each dependency is given by the file list its
glob resolves to. -/
def registerSchemas (fs : FileSystem) (dependencies : List (List String))
    (st : ModuleState) : ModuleState :=
  dependencies.foldl (registerDependency fs) { st with schemas := [] }

/-- `LoadSchemaOptions` for `getSchema`. -/
structure LoadSchemaOptions where
  compiled : Bool := true
deriving DecidableEq, Repr

/-- Modelled from the spec: `build(options)` of `lib/JsonSchema.js` is kept
abstract — `getSchema` only delegates to it. -/
abbrev BuildFn (β : Type) := JsonSchema → LoadSchemaOptions → β

/-- `getSchema(schemaName, options)` (Compiler.js lines 167-171). The JS
method performs no assignment to module state, so the embedding returns
only the result. -/
def getSchema {β : Type} (build : BuildFn β) (st : ModuleState) (schemaName : String)
    (options : LoadSchemaOptions) : Except JsonError β :=
  match getKey st.schemas schemaName with
  | none => .error (.notFound "schema" schemaName)
  | some schema => .ok (build schema options)

/-! Concrete scenarios used as executable evidence below. -/

/-- Scenario: an extension schema declaring `$patch.source.$ref = "base"`
and the base schema itself, to be registered in forward-reference order. -/
def fsC1 : FileSystem := fun p =>
  if p = "ext.schema.json" then some ⟨"ext", some (some "base")⟩
  else if p = "base.schema.json" then some ⟨"base", none⟩
  else none

/-- State after registering the extension schema first: the catalog holds
"ext" and the ledger parks "ext" under the awaited name "base". -/
def stC1a : ModuleState :=
  (registerSchema fsC1 emptyModuleState (.str "ext.schema.json") {}).2

/-- Scenario: base schema `S`; a first version of `N` that patches `S`;
a second version of `N` with no patch relationship. -/
def fsC4 : FileSystem := fun p =>
  if p = "s.json" then some ⟨"S", none⟩
  else if p = "n1.json" then some ⟨"N", some (some "S")⟩
  else if p = "n2.json" then some ⟨"N", none⟩
  else none

/-- State after registering `S`. -/
def stC4a : ModuleState := (registerSchema fsC4 emptyModuleState (.str "s.json") {}).2

/-- State after additionally registering the first `N` (which extends `S`,
so `S`'s extension set now records "N"). -/
def stC4b : ModuleState := (registerSchema fsC4 stC4a (.str "n1.json") {}).2

/-- State after replacing `N` by its second, patch-free version. -/
def stC4c : ModuleState :=
  (registerSchema fsC4 stC4b (.str "n2.json") { replace := true }).2

/-- A loaded schema unit used for `getSchema` evidence. -/
def unitEx : JsonSchema :=
  { filePath := "x.json", name := some "x", raw := some ⟨"x", none⟩, extensions := [] }

/-- A module state whose catalog holds exactly `unitEx` under "x". -/
def stEx : ModuleState := { emptyModuleState with schemas := [("x", unitEx)] }

/-- Helper: the unit produced by a successful `createSchema` + `load`:
the fresh unit with any "undefined"-keyed pending extensions applied,
its `raw` and `name` populated from the loaded document. -/
def loadedUnit (st : ModuleState) (fp : String) (doc : RawDoc) : JsonSchema :=
  { filePath := fp, name := some doc.anchor, raw := some doc,
    extensions := (List.foldl JsonSchema.addExtension ⟨fp, none, none, []⟩
      ((getKey st.schemaExtensions "undefined").getD [])).extensions }

/-- Helper: the module state after `createSchema`'s ledger mutation
(deleting the key "undefined"). -/
def afterCreate (st : ModuleState) : ModuleState :=
  { st with schemaExtensions := delKey st.schemaExtensions "undefined" }


/-! Helper lemmas about the association-list operations and about
`JsonSchema.addExtension`. -/

theorem getKey_setKey_self {α : Type} (m : List (String × α)) (k : String) (v : α) :
    getKey (setKey m k v) k = some v := by
  induction m with
  | nil => simp [getKey, setKey]
  | cons p t ih =>
    by_cases h : p.1 = k
    · simp [setKey, getKey, h]
    · simp [setKey, getKey, h, ih]

theorem getKey_setKey_ne {α : Type} (m : List (String × α)) (k k' : String) (v : α)
    (h : k' ≠ k) : getKey (setKey m k v) k' = getKey m k' := by
  have h' : ¬ (k = k') := fun hh => h hh.symm
  induction m with
  | nil => simp [getKey, setKey, h']
  | cons p t ih =>
    by_cases hp : p.1 = k
    · subst hp
      simp [setKey, getKey, h']
    · by_cases hp' : p.1 = k'
      · simp [setKey, getKey, hp, hp', h]
      · simp [setKey, getKey, hp, hp', ih]

theorem getKey_delKey_self {α : Type} (m : List (String × α)) (k : String) :
    getKey (delKey m k) k = none := by
  induction m with
  | nil => simp [getKey, delKey]
  | cons p t ih =>
    by_cases h : p.1 = k
    · simp [delKey, h, ih]
    · simp [delKey, getKey, h, ih]

theorem getKey_delKey_ne {α : Type} (m : List (String × α)) (k k' : String)
    (h : k' ≠ k) : getKey (delKey m k) k' = getKey m k' := by
  have h' : ¬ (k = k') := fun hh => h hh.symm
  induction m with
  | nil => simp [getKey, delKey]
  | cons p t ih =>
    by_cases hp : p.1 = k
    · subst hp
      simp [delKey, getKey, h', ih]
    · by_cases hp' : p.1 = k'
      · simp [delKey, getKey, hp, hp', h]
      · simp [delKey, getKey, hp, hp', ih]

theorem delKey_of_getKey_none {α : Type} (m : List (String × α)) (k : String)
    (h : getKey m k = none) : delKey m k = m := by
  induction m with
  | nil => rfl
  | cons p t ih =>
    by_cases hp : p.1 = k
    · simp [getKey, hp] at h
    · simp [getKey, hp] at h
      simp [delKey, hp, ih h]

theorem addExtension_filePath (s : JsonSchema) (e : String) :
    (s.addExtension e).filePath = s.filePath := by
  unfold JsonSchema.addExtension
  by_cases h : e ∈ s.extensions <;> simp [h]

theorem addExtension_raw (s : JsonSchema) (e : String) :
    (s.addExtension e).raw = s.raw := by
  unfold JsonSchema.addExtension
  by_cases h : e ∈ s.extensions <;> simp [h]

theorem addExtension_name (s : JsonSchema) (e : String) :
    (s.addExtension e).name = s.name := by
  unfold JsonSchema.addExtension
  by_cases h : e ∈ s.extensions <;> simp [h]

theorem foldl_addExtension_filePath (l : List String) (s : JsonSchema) :
    (List.foldl JsonSchema.addExtension s l).filePath = s.filePath := by
  induction l generalizing s with
  | nil => rfl
  | cons a t ih => simp [List.foldl, ih, addExtension_filePath]

theorem foldl_addExtension_raw (l : List String) (s : JsonSchema) :
    (List.foldl JsonSchema.addExtension s l).raw = s.raw := by
  induction l generalizing s with
  | nil => rfl
  | cons a t ih => simp [List.foldl, ih, addExtension_raw]

theorem foldl_addExtension_name (l : List String) (s : JsonSchema) :
    (List.foldl JsonSchema.addExtension s l).name = s.name := by
  induction l generalizing s with
  | nil => rfl
  | cons a t ih => simp [List.foldl, ih, addExtension_name]

theorem mem_addExtension (s : JsonSchema) (e x : String) (h : x ∈ s.extensions) :
    x ∈ (s.addExtension e).extensions := by
  unfold JsonSchema.addExtension
  by_cases he : e ∈ s.extensions <;> simp [he, h]

theorem mem_addExtension_self (s : JsonSchema) (e : String) :
    e ∈ (s.addExtension e).extensions := by
  unfold JsonSchema.addExtension
  by_cases he : e ∈ s.extensions <;> simp [he]

theorem mem_foldl_addExtension_left (l : List String) (s : JsonSchema) (x : String)
    (h : x ∈ s.extensions) : x ∈ (List.foldl JsonSchema.addExtension s l).extensions := by
  induction l generalizing s with
  | nil => exact h
  | cons a t ih => exact ih (s.addExtension a) (mem_addExtension s a x h)

theorem mem_foldl_addExtension_of_mem (l : List String) (s : JsonSchema) (x : String)
    (h : x ∈ l) : x ∈ (List.foldl JsonSchema.addExtension s l).extensions := by
  induction l generalizing s with
  | nil => cases h
  | cons a t ih =>
    rcases List.mem_cons.mp h with rfl | ht
    · exact mem_foldl_addExtension_left t (s.addExtension x) x (mem_addExtension_self s x)
    · exact ih (s.addExtension a) ht

/-- C9: calling `registerSchema` with a non-string `filePath` fails with an
`InvalidParams` error naming the filePath parameter, before any schema is
loaded (the filesystem is never consulted) and with catalog and ledger
unchanged (the whole module state is returned untouched). -/
theorem registerSchema_invalidParams (fs : FileSystem) (st : ModuleState)
    (v : JsValue) (options : RegisterSchemaOptions) (h : isString v = false) :
    registerSchema fs st v options = (.error (.invalidParams ["filePath"]), st) := by
  cases v with
  | str s => simp [isString] at h
  | num n => rfl
  | boolean b => rfl
  | undefined => rfl

/-- C9 witness: a concrete non-string argument (`undefined`) is rejected
with `InvalidParams ["filePath"]` and the state is returned unchanged. -/
theorem registerSchema_invalidParams_witness :
    isString .undefined = false ∧
      registerSchema (fun _ => none) emptyModuleState .undefined {} =
        (.error (.invalidParams ["filePath"]), emptyModuleState) :=
  ⟨rfl, registerSchema_invalidParams (fun _ => none) emptyModuleState .undefined {} rfl⟩

/-- C8: for every keyword definition, if installing it into the validation
engine throws, `addKeyword` catches the failure, appends exactly one
warning log entry naming the keyword, and leaves the rest of the module
state unchanged; if installation succeeds only the validator is updated.
`addKeyword` is a total function into `ModuleState`, so it never
propagates the exception. -/
theorem addKeyword_swallows (impl : AjvAddKeyword) (st : ModuleState) (d : KeywordDef) :
    (∀ e, impl st.validator d = .error e →
        addKeyword impl st d
          = { st with log := st.log ++ [⟨.warn, ["failed to define keyword", d.keyword, e]⟩] })
    ∧ (∀ v, impl st.validator d = .ok v → addKeyword impl st d = { st with validator := v }) := by
  constructor
  · intro e he
    simp [addKeyword, he, ModuleState.logEntry]
  · intro v hv
    simp [addKeyword, hv]

/-- C8 witness: a keyword installer that always throws is caught and
logged; the schemas/ledger/validator components are untouched. -/
theorem addKeyword_swallows_witness :
    addKeyword (fun _ _ => .error "boom") emptyModuleState ⟨"kw"⟩
      = { emptyModuleState with
          log := emptyModuleState.log ++ [⟨.warn, ["failed to define keyword", "kw", "boom"]⟩] } :=
  (addKeyword_swallows (fun _ _ => .error "boom") emptyModuleState ⟨"kw"⟩).1 "boom" rfl

/-- C7: `getSchema` fails with a `NotFound` error carrying type "schema"
and the requested id exactly when the name is absent from the catalog, and
otherwise returns the unit's `build(options)`; the embedding returns no
state because the source method performs no state mutation. -/
theorem getSchema_resolve {β : Type} (build : BuildFn β) (st : ModuleState)
    (schemaName : String) (options : LoadSchemaOptions) :
    (getSchema build st schemaName options = .error (.notFound "schema" schemaName)
       ↔ getKey st.schemas schemaName = none)
    ∧ (∀ u, getKey st.schemas schemaName = some u →
        getSchema build st schemaName options = .ok (build u options)) := by
  constructor
  · constructor
    · intro h
      cases hk : getKey st.schemas schemaName with
      | none => rfl
      | some u => simp [getSchema, hk] at h
    · intro h
      simp [getSchema, h]
  · intro u hu
    simp [getSchema, hu]

/-- C7 witness: on a catalog holding exactly "x", resolving "x" returns
its build result and resolving "y" fails with `NotFound schema y`. -/
theorem getSchema_resolve_witness :
    getSchema (fun s _ => s) stEx "x" {} = .ok unitEx
    ∧ getSchema (fun s _ => s) stEx "y" {} = .error (.notFound "schema" "y") := by
  constructor
  · exact (getSchema_resolve (fun s _ => s) stEx "x" {}).2 unitEx rfl
  · exact (getSchema_resolve (fun s _ => s) stEx "y" {}).1.2 rfl

/-- C2: for every format entry processed by `addStringFormats` (which
folds `addStringFormat1` over the entries): when safe-regex classifies the
pattern unsafe, a warning naming the format and the pattern is logged and
the permissive `/.*/` is installed in its place (so any candidate other
than `/.*/` itself is never installed verbatim); when it is classified
safe, the candidate itself is installed unchanged and nothing is logged. -/
theorem addStringFormats_guard (safeRegex : SafeRegexCheck) (st : ModuleState)
    (name : String) (re : RegExpPat) (formats : List (String × RegExpPat)) :
    (addStringFormats safeRegex st formats = formats.foldl (addStringFormat1 safeRegex) st)
    ∧ (safeRegex re = false →
        getKey (addStringFormat1 safeRegex st (name, re)).validator.formats name
            = some catchAllPattern
        ∧ (addStringFormat1 safeRegex st (name, re)).log
            = st.log ++ [⟨.warn, ["unsafe RegExp for format", name, re.source, "using default"]⟩]
        ∧ (re ≠ catchAllPattern →
            getKey (addStringFormat1 safeRegex st (name, re)).validator.formats name ≠ some re))
    ∧ (safeRegex re = true →
        addStringFormat1 safeRegex st (name, re)
          = { st with validator := st.validator.addFormat name re }) := by
  refine ⟨rfl, ?_, ?_⟩
  · intro h
    have hget : getKey (addStringFormat1 safeRegex st (name, re)).validator.formats name
        = some catchAllPattern := by
      simp [addStringFormat1, h, ModuleState.logEntry, Validator.addFormat, getKey_setKey_self]
    refine ⟨hget, ?_, ?_⟩
    · simp [addStringFormat1, h, ModuleState.logEntry]
    · intro hne hc
      rw [hget] at hc
      exact hne (by injection hc with h2; exact h2.symm)
  · intro h
    simp [addStringFormat1, h]

/-- C2 witness: under a classifier that flags `(a+)+$`, registering that
pattern installs `/.*/` instead and logs a warning naming format and
pattern; the pattern differs from the fallback so it is not installed
verbatim. -/
theorem addStringFormats_guard_witness :
    getKey (addStringFormat1 (fun re => re.source != "(a+)+$") emptyModuleState
        ("myformat", ⟨"(a+)+$"⟩)).validator.formats "myformat" = some catchAllPattern
    ∧ (addStringFormat1 (fun re => re.source != "(a+)+$") emptyModuleState
        ("myformat", ⟨"(a+)+$"⟩)).log
        = emptyModuleState.log
            ++ [⟨.warn, ["unsafe RegExp for format", "myformat", "(a+)+$", "using default"]⟩]
    ∧ getKey (addStringFormat1 (fun re => re.source != "(a+)+$") emptyModuleState
        ("myformat", ⟨"(a+)+$"⟩)).validator.formats "myformat" ≠ some ⟨"(a+)+$"⟩ := by
  have h := (addStringFormats_guard (fun re => re.source != "(a+)+$") emptyModuleState
      "myformat" ⟨"(a+)+$"⟩ []).2.1 (by decide)
  exact ⟨h.1, h.2.1, h.2.2 (by decide)⟩

/-- C1: executable evidence against the drain invariant. Register an
extension schema (patch source "base") into a fresh module, then register
"base" itself: the registration succeeds and the pending extension "ext"
is applied to the new unit, but the ledger entry keyed by "base" is NOT
removed — it coexists with the catalog entry for "base". The delete at
Compiler.js line 140 runs before `load()` has derived `schema.name`, so it
targets the key "undefined" and the real ledger entry survives. -/
theorem ledger_not_drained_after_register :
    (registerSchema fsC1 stC1a (.str "base.schema.json") {}).1 = .ok ()
    ∧ getKey (registerSchema fsC1 stC1a (.str "base.schema.json") {}).2.schemas "base"
        = some ⟨"base.schema.json", some "base", some ⟨"base", none⟩, ["ext"]⟩
    ∧ getKey (registerSchema fsC1 stC1a (.str "base.schema.json") {}).2.schemaExtensions "base"
        = some ["ext"] := by
  refine ⟨rfl, rfl, rfl⟩

/-- C4 counterexample: register `S`, then `N` (which patches `S`, so `S`'s
extension set records "N"), then replace `N` by a version with no patch
relationship. The replacement succeeds, yet `S`'s extension set still
records "N" — a relationship contributed solely by the replaced unit
persists, contradicting the claim that replacement removes all of the old
unit's extension relationships from the bookkeeping. -/
theorem stale_extension_persists_after_replace :
    (registerSchema fsC4 stC4b (.str "n2.json") { replace := true }).1 = .ok ()
    ∧ getKey stC4c.schemas "S"
        = some ⟨"s.json", some "S", some ⟨"S", none⟩, ["N"]⟩
    ∧ getKey stC4c.schemas "N"
        = some ⟨"n2.json", some "N", some ⟨"N", none⟩, []⟩ := by
  refine ⟨rfl, rfl, rfl⟩


theorem loadedUnit_name (st : ModuleState) (fp : String) (doc : RawDoc) :
    (loadedUnit st fp doc).name = some doc.anchor := rfl

theorem loadedUnit_raw (st : ModuleState) (fp : String) (doc : RawDoc) :
    (loadedUnit st fp doc).raw = some doc := rfl

theorem loadedUnit_filePath (st : ModuleState) (fp : String) (doc : RawDoc) :
    (loadedUnit st fp doc).filePath = fp := rfl

theorem extendSchema_base_present (st : ModuleState) (b e : String) (u : JsonSchema)
    (h : getKey st.schemas b = some u) :
    extendSchema st b e
      = { st with schemas := setKey st.schemas b (u.addExtension e),
                  log := st.log ++ [⟨.debug, ["EXTEND_SCHEMA", b, e]⟩] } := by
  unfold extendSchema
  rw [h]
  rfl

theorem extendSchema_base_absent (st : ModuleState) (b e : String)
    (h : getKey st.schemas b = none) :
    extendSchema st b e
      = { st with
          schemaExtensions := setKey st.schemaExtensions b
            (((getKey st.schemaExtensions b).getD []) ++ [e]),
          log := st.log ++ [⟨.debug, ["EXTEND_SCHEMA", b, e]⟩] } := by
  simp only [extendSchema, h]
  rfl

theorem finishRegister_eq_no_patch (st : ModuleState) (schema : JsonSchema)
    (name fp : String) (doc : RawDoc) (hr : schema.raw = some doc) (hp : doc.patch = none) :
    finishRegister st schema name fp
      = (.ok (), { st with
          schemas := setKey st.schemas name
            (List.foldl JsonSchema.addExtension schema ((getKey st.schemaExtensions name).getD [])),
          log := st.log ++ [⟨.debug, ["REGISTER_SCHEMA", name, fp]⟩] }) := by
  obtain ⟨a, p⟩ := doc
  have hp2 : p = none := hp
  subst hp2
  simp only [finishRegister]
  rw [show (List.foldl JsonSchema.addExtension schema
      ((getKey st.schemaExtensions name).getD [])).raw = some ⟨a, none⟩ from
    (foldl_addExtension_raw _ _).trans hr]
  rfl

theorem finishRegister_eq_patch (st : ModuleState) (schema : JsonSchema)
    (name fp : String) (doc : RawDoc) (srcRef : Option String)
    (hr : schema.raw = some doc) (hp : doc.patch = some srcRef) :
    finishRegister st schema name fp
      = (.ok (), (extendSchema { st with
          schemas := setKey st.schemas name
            (List.foldl JsonSchema.addExtension schema ((getKey st.schemaExtensions name).getD [])) }
          (jsKeyOf srcRef) name).logEntry .debug ["REGISTER_SCHEMA", name, fp]) := by
  obtain ⟨a, p⟩ := doc
  have hp2 : p = some srcRef := hp
  subst hp2
  simp only [finishRegister]
  rw [show (List.foldl JsonSchema.addExtension schema
      ((getKey st.schemaExtensions name).getD [])).raw = some ⟨a, some srcRef⟩ from
    (foldl_addExtension_raw _ _).trans hr]

theorem registerSchema_cases (fs : FileSystem) (st : ModuleState) (fp : String)
    (doc : RawDoc) (options : RegisterSchemaOptions) (hfs : fs fp = some doc) :
    (getKey st.schemas doc.anchor = none →
       registerSchema fs st (.str fp) options
         = finishRegister (afterCreate st) (loadedUnit st fp doc) doc.anchor fp)
    ∧ (getKey st.schemas doc.anchor ≠ none → options.replace = true →
       registerSchema fs st (.str fp) options
         = finishRegister (deregisterSchema (afterCreate st) doc.anchor)
             (loadedUnit st fp doc) doc.anchor fp)
    ∧ (getKey st.schemas doc.anchor ≠ none → options.replace = false →
       registerSchema fs st (.str fp) options
         = (.error (.schemaExists doc.anchor fp), afterCreate st)) := by
  have hload : JsonSchema.load fs (List.foldl JsonSchema.addExtension
      ⟨fp, none, none, []⟩ ((getKey st.schemaExtensions "undefined").getD []))
      = .ok (loadedUnit st fp doc) := by
    unfold JsonSchema.load
    rw [foldl_addExtension_filePath, hfs]
    rfl
  refine ⟨?_, ?_, ?_⟩
  · intro hnone
    simp only [registerSchema, createSchema, jsKeyOf, hload, loadedUnit_name]
    simp only [afterCreate] at *
    simp only [hnone, Option.isSome_none, Bool.false_eq_true, if_false]
  · intro hsome hrep
    obtain ⟨old, hold⟩ := Option.ne_none_iff_exists'.mp hsome
    simp only [registerSchema, createSchema, jsKeyOf, hload, loadedUnit_name]
    simp only [afterCreate] at *
    simp only [hold, hrep, Option.isSome_some, if_true]
  · intro hsome hrep
    obtain ⟨old, hold⟩ := Option.ne_none_iff_exists'.mp hsome
    simp only [registerSchema, createSchema, jsKeyOf, hload, loadedUnit_name]
    simp only [afterCreate] at *
    simp only [hold, hrep, Option.isSome_some, Bool.false_eq_true, if_true, if_false]

theorem deregisterSchema_eq (st : ModuleState) (name : String) :
    deregisterSchema st name
      = { st with schemas := delKey st.schemas name,
                  log := st.log ++ [⟨.debug, ["DEREGISTER_SCHEMA", name]⟩] } := by
  unfold deregisterSchema
  rcases h : getKey st.schemas name with _ | u
  · rw [delKey_of_getKey_none st.schemas name h]
    simp [ModuleState.logEntry]
  · simp [ModuleState.logEntry]

theorem finishRegister_spec (st : ModuleState) (schema : JsonSchema) (name fp : String)
    (doc : RawDoc) (hr : schema.raw = some doc) :
    (finishRegister st schema name fp).1 = .ok ()
    ∧ ∃ u mid,
        getKey (finishRegister st schema name fp).2.schemas name = some u
        ∧ u.filePath = schema.filePath
        ∧ u.raw = schema.raw
        ∧ (∀ x, x ∈ (getKey st.schemaExtensions name).getD [] → x ∈ u.extensions)
        ∧ (∀ x, x ∈ schema.extensions → x ∈ u.extensions)
        ∧ (finishRegister st schema name fp).2.log
            = st.log ++ mid ++ [⟨.debug, ["REGISTER_SCHEMA", name, fp]⟩] := by
  rcases hp : doc.patch with _ | srcRef
  · rw [finishRegister_eq_no_patch st schema name fp doc hr hp]
    refine ⟨rfl, List.foldl JsonSchema.addExtension schema
        ((getKey st.schemaExtensions name).getD []), [], getKey_setKey_self _ _ _,
      foldl_addExtension_filePath _ _, foldl_addExtension_raw _ _,
      fun x hx => mem_foldl_addExtension_of_mem _ _ _ hx,
      fun x hx => mem_foldl_addExtension_left _ _ _ hx, by simp⟩
  · rw [finishRegister_eq_patch st schema name fp doc srcRef hr hp]
    rcases hgb : getKey (setKey st.schemas name (List.foldl JsonSchema.addExtension schema
        ((getKey st.schemaExtensions name).getD []))) (jsKeyOf srcRef) with _ | b
    · rw [extendSchema_base_absent _ _ _ hgb]
      refine ⟨rfl, List.foldl JsonSchema.addExtension schema
          ((getKey st.schemaExtensions name).getD []),
        [⟨.debug, ["EXTEND_SCHEMA", jsKeyOf srcRef, name]⟩], ?_,
        foldl_addExtension_filePath _ _, foldl_addExtension_raw _ _,
        fun x hx => mem_foldl_addExtension_of_mem _ _ _ hx,
        fun x hx => mem_foldl_addExtension_left _ _ _ hx, ?_⟩
      · simp only [ModuleState.logEntry]
        exact getKey_setKey_self _ _ _
      · simp [ModuleState.logEntry]
    · rw [extendSchema_base_present _ _ _ b hgb]
      by_cases hbn : jsKeyOf srcRef = name
      · subst hbn
        rw [getKey_setKey_self] at hgb
        injection hgb with hgb2
        subst hgb2
        refine ⟨rfl, (List.foldl JsonSchema.addExtension schema
            ((getKey st.schemaExtensions (jsKeyOf srcRef)).getD [])).addExtension (jsKeyOf srcRef),
          [⟨.debug, ["EXTEND_SCHEMA", jsKeyOf srcRef, jsKeyOf srcRef]⟩], ?_, ?_, ?_,
          ?_, ?_, ?_⟩
        · simp only [ModuleState.logEntry]
          exact getKey_setKey_self _ _ _
        · rw [addExtension_filePath, foldl_addExtension_filePath]
        · rw [addExtension_raw, foldl_addExtension_raw]
        · intro x hx
          exact mem_addExtension _ _ _ (mem_foldl_addExtension_of_mem _ _ _ hx)
        · intro x hx
          exact mem_addExtension _ _ _ (mem_foldl_addExtension_left _ _ _ hx)
        · simp [ModuleState.logEntry]
      · refine ⟨rfl, List.foldl JsonSchema.addExtension schema
            ((getKey st.schemaExtensions name).getD []),
          [⟨.debug, ["EXTEND_SCHEMA", jsKeyOf srcRef, name]⟩], ?_,
          foldl_addExtension_filePath _ _, foldl_addExtension_raw _ _,
          fun x hx => mem_foldl_addExtension_of_mem _ _ _ hx,
          fun x hx => mem_foldl_addExtension_left _ _ _ hx, ?_⟩
        · simp only [ModuleState.logEntry]
          rw [getKey_setKey_ne _ _ _ _ (fun hh => hbn hh.symm)]
          exact getKey_setKey_self _ _ _
        · simp [ModuleState.logEntry]

/-- C3: when the loaded schema's name already exists in the catalog, a
`registerSchema` call without `replace` fails with `SchemaExists` carrying
the conflicting name and the file path and performs no insertion (the
catalog is returned unchanged); with `replace` set, the call succeeds:
the old unit is deregistered first (witnessed by the `DEREGISTER_SCHEMA`
log entry preceding the final `REGISTER_SCHEMA` entry) and the new unit,
loaded from the given file, is then stored under the name. -/
theorem registerSchema_conflict (fs : FileSystem) (st : ModuleState) (fp : String)
    (doc : RawDoc) (old : JsonSchema) (options : RegisterSchemaOptions)
    (hfs : fs fp = some doc) (hold : getKey st.schemas doc.anchor = some old) :
    (options.replace = false →
        registerSchema fs st (.str fp) options
          = (.error (.schemaExists doc.anchor fp), afterCreate st)
        ∧ (registerSchema fs st (.str fp) options).2.schemas = st.schemas)
    ∧ (options.replace = true →
        (registerSchema fs st (.str fp) options).1 = .ok ()
        ∧ ∃ u mid,
            getKey (registerSchema fs st (.str fp) options).2.schemas doc.anchor = some u
            ∧ u.filePath = fp ∧ u.raw = some doc
            ∧ (registerSchema fs st (.str fp) options).2.log
                = st.log ++ ⟨.debug, ["DEREGISTER_SCHEMA", doc.anchor]⟩ :: mid
                    ++ [⟨.debug, ["REGISTER_SCHEMA", doc.anchor, fp]⟩]) := by
  have hsome : getKey st.schemas doc.anchor ≠ none := by
    rw [hold]
    exact fun h => Option.noConfusion h
  constructor
  · intro hrep
    rw [(registerSchema_cases fs st fp doc options hfs).2.2 hsome hrep]
    exact ⟨rfl, rfl⟩
  · intro hrep
    rw [(registerSchema_cases fs st fp doc options hfs).2.1 hsome hrep]
    obtain ⟨hok, u, mid, hu, hufp, huraw, hpmem, hsmem, hlog⟩ :=
      finishRegister_spec (deregisterSchema (afterCreate st) doc.anchor)
        (loadedUnit st fp doc) doc.anchor fp doc (loadedUnit_raw st fp doc)
    refine ⟨hok, u, mid, hu, ?_, ?_, ?_⟩
    · rw [hufp, loadedUnit_filePath]
    · rw [huraw, loadedUnit_raw]
    · rw [hlog, deregisterSchema_eq]
      simp [afterCreate]

/-- C4 corrected: replacement removes only the old unit's catalog entry.
`deregisterSchema` touches nothing but the catalog binding and the log,
the replace path succeeds, and every other unit (hence any extension set
recording the replaced unit's name) and every ledger entry other than the
"undefined"-keyed slip deleted by `createSchema` are left exactly as they
were — stale extension relationships contributed by the replaced unit
persist. -/
theorem registerSchema_replace_frame (fs : FileSystem) (st : ModuleState) (fp : String)
    (doc : RawDoc) (old : JsonSchema) (options : RegisterSchemaOptions)
    (hfs : fs fp = some doc) (hrep : options.replace = true)
    (hold : getKey st.schemas doc.anchor = some old) (hpatch : doc.patch = none) :
    (∀ st2 n, deregisterSchema st2 n
        = { st2 with schemas := delKey st2.schemas n,
                     log := st2.log ++ [⟨.debug, ["DEREGISTER_SCHEMA", n]⟩] })
    ∧ (registerSchema fs st (.str fp) options).1 = .ok ()
    ∧ (∀ M, M ≠ doc.anchor →
        getKey (registerSchema fs st (.str fp) options).2.schemas M = getKey st.schemas M)
    ∧ (∀ K, K ≠ "undefined" →
        getKey (registerSchema fs st (.str fp) options).2.schemaExtensions K
          = getKey st.schemaExtensions K) := by
  have hsome : getKey st.schemas doc.anchor ≠ none := by
    rw [hold]
    exact fun h => Option.noConfusion h
  have hmain := (registerSchema_cases fs st fp doc options hfs).2.1 hsome hrep
  rw [deregisterSchema_eq] at hmain
  rw [finishRegister_eq_no_patch _ _ _ _ doc (loadedUnit_raw st fp doc) hpatch] at hmain
  refine ⟨deregisterSchema_eq, ?_, ?_, ?_⟩
  · rw [hmain]
  · intro M hM
    rw [hmain]
    show getKey (setKey (delKey st.schemas doc.anchor) doc.anchor _) M = getKey st.schemas M
    rw [getKey_setKey_ne _ _ _ _ hM, getKey_delKey_ne _ _ _ hM]
  · intro K hK
    rw [hmain]
    show getKey (delKey st.schemaExtensions "undefined") K = getKey st.schemaExtensions K
    rw [getKey_delKey_ne _ _ _ hK]

/-- C5: registering a schema `E` whose document declares a patch source
`S`: when `S` is in the catalog at that moment, `E` is immediately
appended to `S`'s unit via `addExtension`; when `S` is absent, `E` is
appended to the ledger's pending list keyed by `S`. (Stated for a
registration into a catalog with no prior entry named `E`, with `S`
distinct from `E` and from the "undefined" key used by `createSchema`.) -/
theorem registerSchema_patch_source (fs : FileSystem) (st : ModuleState) (fp : String)
    (doc : RawDoc) (S E : String) (options : RegisterSchemaOptions)
    (hfs : fs fp = some doc) (hanchor : doc.anchor = E)
    (hpatch : doc.patch = some (some S)) (hSE : S ≠ E)
    (hreg : getKey st.schemas E = none) :
    (∀ b, getKey st.schemas S = some b →
        getKey (registerSchema fs st (.str fp) options).2.schemas S
          = some (b.addExtension E))
    ∧ (getKey st.schemas S = none → S ≠ "undefined" →
        getKey (registerSchema fs st (.str fp) options).2.schemaExtensions S
          = some (((getKey st.schemaExtensions S).getD []) ++ [E])) := by
  subst hanchor
  have hmain := (registerSchema_cases fs st fp doc options hfs).1 hreg
  rw [finishRegister_eq_patch _ _ _ _ doc (some S) (loadedUnit_raw st fp doc) hpatch] at hmain
  constructor
  · intro b hb
    have hbase : getKey (setKey (afterCreate st).schemas doc.anchor
        (List.foldl JsonSchema.addExtension (loadedUnit st fp doc)
          ((getKey (afterCreate st).schemaExtensions doc.anchor).getD []))) (jsKeyOf (some S))
        = some b := by
      show getKey (setKey st.schemas doc.anchor _) S = some b
      rw [getKey_setKey_ne _ _ _ _ hSE]
      exact hb
    rw [extendSchema_base_present _ _ _ b hbase] at hmain
    rw [hmain]
    show getKey (setKey (setKey st.schemas doc.anchor _) S (b.addExtension doc.anchor)) S
        = some (b.addExtension doc.anchor)
    exact getKey_setKey_self _ _ _
  · intro hS hSU
    have hbase : getKey (setKey (afterCreate st).schemas doc.anchor
        (List.foldl JsonSchema.addExtension (loadedUnit st fp doc)
          ((getKey (afterCreate st).schemaExtensions doc.anchor).getD []))) (jsKeyOf (some S))
        = none := by
      show getKey (setKey st.schemas doc.anchor _) S = none
      rw [getKey_setKey_ne _ _ _ _ hSE]
      exact hS
    rw [extendSchema_base_absent _ _ _ hbase] at hmain
    rw [hmain]
    show getKey (setKey (delKey st.schemaExtensions "undefined") S
        (((getKey (delKey st.schemaExtensions "undefined") S).getD []) ++ [doc.anchor])) S
        = some (((getKey st.schemaExtensions S).getD []) ++ [doc.anchor])
    rw [getKey_setKey_self, getKey_delKey_ne _ _ _ hSU]

/-- C10: discovery resets the catalog but leaves the ledger alone: an
empty discovery pass returns the state with only the catalog cleared and
the ledger untouched, and an extension deferred before the reset survives
the pass — when the new pass registers a schema of the awaited name, every
pending extension is applied to the new unit. -/
theorem registerSchemas_ledger_survives (fs : FileSystem) (st : ModuleState)
    (f N : String) (doc : RawDoc) (P : List String)
    (hfs : fs f = some doc) (hanchor : doc.anchor = N) (hN : N ≠ "undefined")
    (hpend : getKey st.schemaExtensions N = some P) :
    ((registerSchemas fs [] st).schemaExtensions = st.schemaExtensions
      ∧ (registerSchemas fs [] st).schemas = [])
    ∧ (∀ x ∈ P, ∃ u, getKey (registerSchemas fs [[f]] st).schemas N = some u
        ∧ x ∈ u.extensions) := by
  subst hanchor
  refine ⟨⟨rfl, rfl⟩, ?_⟩
  have hreg : registerSchema fs { st with schemas := [] } (.str f) {}
      = finishRegister (afterCreate { st with schemas := [] })
          (loadedUnit { st with schemas := [] } f doc) doc.anchor f :=
    (registerSchema_cases fs { st with schemas := [] } f doc {} hfs).1 rfl
  obtain ⟨hok, u, mid, hu, hufp, huraw, hpmem, hsmem, hlog⟩ :=
    finishRegister_spec (afterCreate { st with schemas := [] })
      (loadedUnit { st with schemas := [] } f doc) doc.anchor f doc
      (loadedUnit_raw _ _ _)
  intro x hx
  have hcompute : registerSchemas fs [[f]] st
      = (finishRegister (afterCreate { st with schemas := [] })
          (loadedUnit { st with schemas := [] } f doc) doc.anchor f).2 := by
    show registerDependency fs { st with schemas := [] } [f] = _
    unfold registerDependency processFiles
    rw [hreg]
    rcases hfr : finishRegister (afterCreate { st with schemas := [] })
        (loadedUnit { st with schemas := [] } f doc) doc.anchor f with ⟨r, stF⟩
    rw [hfr] at hok
    cases r with
    | error e => exact Except.noConfusion hok
    | ok v => rfl
  refine ⟨u, ?_, ?_⟩
  · rw [hcompute]
    exact hu
  · apply hpmem
    have h2 : getKey (afterCreate { st with schemas := [] }).schemaExtensions doc.anchor
        = some P := by
      show getKey (delKey st.schemaExtensions "undefined") doc.anchor = some P
      rw [getKey_delKey_ne _ _ _ hN]
      exact hpend
    rw [h2]
    exact hx

/-- C10 witness: with "ext" parked in the ledger under "base", an empty
discovery pass keeps the ledger intact, and a pass that registers
base.schema.json produces a catalog unit for "base" carrying "ext". -/
theorem registerSchemas_ledger_survives_witness :
    (registerSchemas fsC1 [] stC1a).schemaExtensions = stC1a.schemaExtensions
    ∧ "ext" ∈ ((getKey (registerSchemas fsC1 [["base.schema.json"]] stC1a).schemas
        "base").getD ⟨"", none, none, []⟩).extensions := by
  have h := registerSchemas_ledger_survives fsC1 stC1a "base.schema.json" "base"
      ⟨"base", none⟩ ["ext"] rfl rfl (by decide) (by decide)
  refine ⟨h.1.1, ?_⟩
  obtain ⟨u, hu, hx⟩ := h.2 "ext" (by decide)
  rw [hu]
  exact hx

/-- C6: discovery starts from a catalog reset to empty, then processes
every dependency; per-file registration is sequentially composable (no
failure short-circuits the remaining files, and all errors are collected
in order), each collected failure is logged as a warning afterwards, and
`registerSchemas` is a total function — per-file failures never raise out
of the pass. -/
theorem registerSchemas_bestEffort (fs : FileSystem) (dependencies : List (List String))
    (st : ModuleState) :
    (registerSchemas fs dependencies st
        = dependencies.foldl (registerDependency fs) { st with schemas := [] })
    ∧ (∀ files1 files2 s, processFiles fs (files1 ++ files2) s
        = ((processFiles fs files1 s).1
             ++ (processFiles fs files2 (processFiles fs files1 s).2).1,
           (processFiles fs files2 (processFiles fs files1 s).2).2))
    ∧ (∀ files s, registerDependency fs s files
        = (processFiles fs files s).1.foldl (fun t e => t.logEntry .warn [errMessage e])
            (processFiles fs files s).2) := by
  refine ⟨rfl, ?_, fun files s => rfl⟩
  intro files1
  induction files1 with
  | nil =>
    intro files2 s
    rfl
  | cons f rest ih =>
    intro files2 s
    rcases hr : registerSchema fs s (.str f) {} with ⟨r, st1⟩
    cases r with
    | error e => simp [processFiles, hr, ih]
    | ok v => simp [processFiles, hr, ih]

/-- C3 witness: with "N" already catalogued, registering n2.json without
replace fails with `SchemaExists N n2.json`; with replace it succeeds. -/
theorem registerSchema_conflict_witness :
    registerSchema fsC4 stC4b (.str "n2.json") {}
      = (.error (.schemaExists "N" "n2.json"), afterCreate stC4b)
    ∧ (registerSchema fsC4 stC4b (.str "n2.json") { replace := true }).1 = .ok () := by
  have h := registerSchema_conflict fsC4 stC4b "n2.json" ⟨"N", none⟩
      ⟨"n1.json", some "N", some ⟨"N", some (some "S")⟩, []⟩ {} rfl (by decide)
  have h2 := registerSchema_conflict fsC4 stC4b "n2.json" ⟨"N", none⟩
      ⟨"n1.json", some "N", some ⟨"N", some (some "S")⟩, []⟩ { replace := true } rfl (by decide)
  exact ⟨(h.1 rfl).1, (h2.2 rfl).1⟩

/-- C4 witness (for the amended frame theorem): replacing "N" by n2.json
succeeds and leaves "S"'s catalog entry — extension set included — exactly
as before the replacement. -/
theorem registerSchema_replace_frame_witness :
    (registerSchema fsC4 stC4b (.str "n2.json") { replace := true }).1 = .ok ()
    ∧ getKey stC4c.schemas "S" = getKey stC4b.schemas "S" := by
  have h := registerSchema_replace_frame fsC4 stC4b "n2.json" ⟨"N", none⟩
      ⟨"n1.json", some "N", some ⟨"N", some (some "S")⟩, []⟩ { replace := true }
      rfl rfl (by decide) rfl
  exact ⟨h.2.1, h.2.2.1 "S" (by decide)⟩

/-- C5 witness: registering n1.json (patch source "S", present) appends
"N" to S's unit; registering ext.schema.json (patch source "base",
absent) parks "ext" in the ledger under "base". -/
theorem registerSchema_patch_source_witness :
    getKey (registerSchema fsC4 stC4a (.str "n1.json") {}).2.schemas "S"
      = some ((⟨"s.json", some "S", some ⟨"S", none⟩, []⟩ : JsonSchema).addExtension "N")
    ∧ getKey (registerSchema fsC1 emptyModuleState
        (.str "ext.schema.json") {}).2.schemaExtensions "base" = some ["ext"] := by
  constructor
  · exact (registerSchema_patch_source fsC4 stC4a "n1.json" ⟨"N", some (some "S")⟩
      "S" "N" {} rfl rfl rfl (by decide) (by decide)).1
      ⟨"s.json", some "S", some ⟨"S", none⟩, []⟩ (by decide)
  · exact (registerSchema_patch_source fsC1 emptyModuleState "ext.schema.json"
      ⟨"ext", some (some "base")⟩ "base" "ext" {} rfl rfl rfl (by decide) rfl).2
      rfl (by decide)

end AdaptSchemas
